import Mathlib

/-! Formal model of the glyph UI-description parser (src/src/parser.rs).

The Rust implementation is a chumsky combinator grammar.  It is shallowly
embedded here: a parser is a function from the remaining input (a list of
characters) to either a success -- carrying the parsed value, the remaining
suffix of the input, and the furthest failure suffix recorded so far -- or a
failure carrying the furthest failure suffix.  A *shorter* failure suffix is
a failure *further* into the input; keeping the shortest recorded suffix
models the combinator library's preference for the error that made the most
progress.  Character positions are recovered at top level as
(input length - suffix length). -/

namespace Glyph

/-- enum Value from parser.rs.  The Rust f64 payloads of Number and
Percentage are modelled as exact rationals: every numeral this grammar
accepts denotes an exact finite decimal, and `str::parse::<f64>` is modelled
by its exact decimal value (see `rustParseF64`). -/
inductive Value where
  | String (s : String)
  | Number (n : ℚ)
  | Percentage (n : ℚ)
  | Identifier (s : String)
  | DString (s : String)
deriving Repr

/-- struct Property from parser.rs. -/
structure Property where
  name : String
  value : Value
deriving Repr

/-- struct Element from parser.rs (a nested inductive in Lean). -/
inductive Element where
  | mk (kind : String) (name : String) (properties : List Property) (children : List Element)

def Element.kind : Element → String
  | .mk k _ _ _ => k

def Element.name : Element → String
  | .mk _ n _ _ => n

def Element.properties : Element → List Property
  | .mk _ _ p _ => p

def Element.children : Element → List Element
  | .mk _ _ _ c => c

/-- struct Language from parser.rs. -/
structure Language where
  name : String
  value : String
  url : Option String
deriving Repr

/-- struct Document from parser.rs. -/
structure Document where
  language : Language
  root : Element

/-- The private helper enum Either at the bottom of parser.rs. -/
inductive Either (L R : Type) where
  | Left (l : L)
  | Right (r : R)
deriving Repr

/-- Either::left from parser.rs. -/
def Either.left : Either L R → Option L
  | .Left l => some l
  | _ => none

/-- Either::right from parser.rs. -/
def Either.right : Either L R → Option R
  | .Right r => some r
  | _ => none

/-- chumsky text::ident first character: ASCII letter or underscore. -/
def isIdentStart (c : Char) : Bool := c.isAlpha || c = '_'

/-- chumsky text::ident continuation character: ASCII alphanumeric or underscore. -/
def isIdentCont (c : Char) : Bool := c.isAlphanum || c = '_'

/-- Value of a run of decimal digit characters. -/
def digitsVal (ds : List Char) : Nat := ds.foldl (fun a c => a * 10 + (c.toNat - 48)) 0

/-- Modelled from the Rust standard library `str::parse::<f64>` on finite
decimal inputs: optional sign, integer digits, optional fraction, at least
one digit in total.  The result is the exact rational value of the decimal
numeral.  Exponent, infinity, NaN and hexadecimal forms are not modelled
(the glyph numeric grammar can never produce them), and IEEE-754 rounding is
not modelled: the exact value is kept. -/
def rustParseF64 (t : String) : Option ℚ :=
  let core : List Char → Option ℚ := fun cs =>
    let ip := cs.takeWhile Char.isDigit
    let r1 := cs.dropWhile Char.isDigit
    match r1 with
    | [] => if ip.isEmpty then none else some ((digitsVal ip : ℚ))
    | '.' :: fr =>
      let fp := fr.takeWhile Char.isDigit
      let r2 := fr.dropWhile Char.isDigit
      if r2.isEmpty && !(ip.isEmpty && fp.isEmpty) then
        some ((digitsVal ip : ℚ) + (digitsVal fp : ℚ) / ((10 : ℚ)) ^ fp.length)
      else none
    | _ => none
  match t.data with
  | [] => core []
  | c :: cs =>
    if c = '-' then (core cs).map (fun q => -q)
    else if c = '+' then core cs
    else core (c :: cs)

/-- Rust `str::trim_end_matches('%')`: drop every trailing percent sign. -/
def trimPct (t : String) : String :=
  String.mk ((t.data.reverse.dropWhile (fun c => c = '%')).reverse)

/-- Result of running a parser: success with value, remaining input suffix
and furthest recorded failure suffix, or failure with furthest failure
suffix. -/
inductive PRes (α : Type) where
  | ok (v : α) (rest : List Char) (best : Option (List Char))
  | err (e : List Char)
deriving Repr

def Parser (α : Type) : Type := List Char → PRes α

/-- Of two failure suffixes keep the one further into the input (shorter
suffix); on a tie keep the first. -/
def shorter (e1 e2 : List Char) : List Char := if e2.length < e1.length then e2 else e1

/-- Merge two optional recorded failures, keeping the furthest. -/
def mergeB : Option (List Char) → Option (List Char) → Option (List Char)
  | none, b => b
  | some e, none => some e
  | some e1, some e2 => some (shorter e1 e2)

/-- Merge a recorded failure into a definite failure, keeping the furthest. -/
def maxB (b : Option (List Char)) (e : List Char) : List Char :=
  match b with
  | none => e
  | some e1 => shorter e1 e

/-- chumsky .map. -/
def pmap (f : α → β) (p : Parser α) : Parser β := fun s =>
  match p s with
  | .ok v r b => .ok (f v) r b
  | .err e => .err e

/-- chumsky .then: run p, then q on the rest. -/
def pseq (p : Parser α) (q : Parser β) : Parser (α × β) := fun s =>
  match p s with
  | .ok v r b1 =>
    match q r with
    | .ok w r2 b2 => .ok (v, w) r2 (mergeB b1 b2)
    | .err e => .err (maxB b1 e)
  | .err e => .err e

/-- chumsky .ignore_then. -/
def ignoreThen (p : Parser α) (q : Parser β) : Parser β := pmap Prod.snd (pseq p q)

/-- chumsky .then_ignore. -/
def thenIgnore (p : Parser α) (q : Parser β) : Parser α := pmap Prod.fst (pseq p q)

/-- chumsky .or: ordered choice with rewind, preferring the furthest error. -/
def porelse (p q : Parser α) : Parser α := fun s =>
  match p s with
  | .ok v r b => .ok v r b
  | .err e1 =>
    match q s with
    | .ok v r b => .ok v r (mergeB (some e1) b)
    | .err e2 => .err (shorter e1 e2)

/-- chumsky .or_not. -/
def popt (p : Parser α) : Parser (Option α) := fun s =>
  match p s with
  | .ok v r b => .ok (some v) r b
  | .err e => .ok none s (some e)

/-- Skip leading whitespace (chumsky text::whitespace). -/
def skipWs (s : List Char) : List Char := s.dropWhile Char.isWhitespace

/-- chumsky .padded: whitespace allowed before and after. -/
def padded (p : Parser α) : Parser α := fun s =>
  match p (skipWs s) with
  | .ok v r b => .ok v (skipWs r) b
  | .err e => .err e

/-- chumsky just(c). -/
def pchar (c : Char) : Parser Char := fun s =>
  match s with
  | [] => .err []
  | d :: rest => if d = c then .ok d rest none else .err (d :: rest)

/-- A greedy character scan records a failure at end of input when it
consumed the whole input (its internal repetition failed there). -/
def eoiMark (r : List Char) : Option (List Char) := if r.isEmpty then some [] else none

/-- chumsky text::ident: a letter or underscore, then letters, digits or
underscores, greedy. -/
def identTok : Parser String := fun s =>
  match s with
  | [] => .err []
  | c :: cs =>
    if isIdentStart c then
      .ok (String.mk (c :: cs.takeWhile isIdentCont)) (cs.dropWhile isIdentCont)
        (eoiMark (cs.dropWhile isIdentCont))
    else .err (c :: cs)

/-- chumsky text::digits(10): one or more decimal digits, greedy. -/
def digitsTok : Parser String := fun s =>
  match s with
  | [] => .err []
  | c :: cs =>
    if c.isDigit then
      .ok (String.mk (c :: cs.takeWhile Char.isDigit)) (cs.dropWhile Char.isDigit)
        (eoiMark (cs.dropWhile Char.isDigit))
    else .err (c :: cs)

/-- chumsky text::int(10): either a nonzero digit followed by digits, or the
single digit zero (no leading zeroes). -/
def intTok : Parser String := fun s =>
  match s with
  | [] => .err []
  | c :: cs =>
    if c.isDigit && c ≠ '0' then
      .ok (String.mk (c :: cs.takeWhile Char.isDigit)) (cs.dropWhile Char.isDigit)
        (eoiMark (cs.dropWhile Char.isDigit))
    else if c = '0' then .ok (String.mk [c]) cs none
    else .err (c :: cs)

/-- chumsky none_of(q).repeated().collect::<String>(): the run of characters
other than q, greedy, never failing. -/
def noneOfRun (q : Char) : Parser String := fun s =>
  .ok (String.mk (s.takeWhile (fun c => c ≠ q))) (s.dropWhile (fun c => c ≠ q))
    (eoiMark (s.dropWhile (fun c => c ≠ q)))

/-- chumsky .repeated().collect::<Vec<_>>(), fuelled for structural
termination.  Every item of this grammar consumes at least one character, so
with fuel exceeding the input length the fuel can never run out; exhausted
fuel is recorded like a failure at end of input. -/
def repAux (p : Parser α) : Nat → List Char → PRes (List α)
  | 0, s => .ok [] s (some [])
  | f + 1, s =>
    match p s with
    | .err e => .ok [] s (some e)
    | .ok v r b =>
      if r.length < s.length then
        match repAux p f r with
        | .ok vs r2 b2 => .ok (v :: vs) r2 (mergeB b b2)
        | .err e => .err (maxB b e)
      else .ok [] s b

/-- chumsky .repeated().collect(), with always-sufficient fuel. -/
def prepeated (p : Parser α) : Parser (List α) := fun s => repAux p (s.length + 1) s

/-- The local `ident` binding in parser(): text::ident().padded(). -/
def identP : Parser String := padded identTok

/-- simple_directive from parser.rs: @name value. -/
def simple_directive : Parser Language :=
  pmap (fun nv => { name := nv.1, value := nv.2, url := none })
    (pseq (ignoreThen (pchar '@') identP) identP)

/-- url_string from parser.rs: a double-quoted run of non-quote characters. -/
def url_string : Parser String :=
  ignoreThen (pchar '"') (thenIgnore (noneOfRun '"') (pchar '"'))

/-- directive_with_url from parser.rs: @name value("url"). -/
def directive_with_url : Parser Language :=
  pmap (fun x => { name := x.1.1, value := x.1.2, url := some x.2 })
    (pseq (pseq (ignoreThen (pchar '@') identP) identP)
      (ignoreThen (pchar '(') (thenIgnore url_string (pchar ')'))))

/-- directive from parser.rs: the URL form is attempted before the simple
form, the whole padded. -/
def directive : Parser Language := padded (porelse directive_with_url simple_directive)

/-- string from parser.rs: a double-quoted run of non-quote characters. -/
def string : Parser Value :=
  pmap Value.String (ignoreThen (pchar '"') (thenIgnore (noneOfRun '"') (pchar '"')))

/-- dstring from parser.rs: just("d\"") then the body then the closing quote. -/
def dstring : Parser Value :=
  pmap Value.DString
    (ignoreThen (pseq (pchar 'd') (pchar '"')) (thenIgnore (noneOfRun '"') (pchar '"')))

/-- frac from parser.rs: just('.').then(text::digits(10)).to_slice() -- the
slice is the dot followed by the digits. -/
def frac : Parser String :=
  pmap (fun x => String.mk ('.' :: x.2.data)) (pseq (pchar '.') digitsTok)

/-- number from parser.rs: int, optional fraction (the slice of the two
being their concatenation), optional percent sign; the map trims trailing
percent signs from the slice (a no-op, the slice never contains one),
converts with str::parse::<f64>().unwrap() -- unwrap modelled by getD, and
the grammar guarantees the parse succeeds -- and tags Percentage when the
percent sign was present, else Number. -/
def number : Parser Value :=
  pmap (fun x =>
    let num_str := trimPct (x.1.1 ++ (match x.1.2 with | some f => f | none => String.mk []))
    let num : ℚ := (rustParseF64 num_str).getD 0
    match x.2 with
    | some _ => Value.Percentage num
    | none => Value.Number num)
    (pseq (pseq intTok (popt frac)) (popt (pchar '%')))

/-- ident_value from parser.rs: an identifier, then zero or more
hyphen-joined identifiers, re-concatenated with single hyphens. -/
def ident_value : Parser Value :=
  pmap (fun x => Value.Identifier
      (x.2.foldl (fun acc part => acc ++ (String.mk ['-']) ++ part) x.1))
    (pseq identTok (prepeated (ignoreThen (pchar '-') identTok)))

/-- value from parser.rs: choice((dstring, string, number, ident_value)).padded(). -/
def value : Parser Value := padded (porelse dstring (porelse string (porelse number ident_value)))

/-- property from parser.rs: ident, '=' (padded), value. -/
def property : Parser Property :=
  pmap (fun x => { name := x.1, value := x.2 })
    (pseq (thenIgnore identP (padded (pchar '='))) value)

/-- The partition discriminator in block's map closure:
matches!(e, Either::Left(_)). -/
def isLeftB : Either L R → Bool
  | .Left _ => true
  | .Right _ => false

/-- The map closure of block in parser.rs: partition the accumulated items
into properties and children. -/
def mkElement (kind name : String) (items : List (Either Property Element)) : Element :=
  let parts := items.partition isLeftB
  Element.mk kind name (parts.1.filterMap Either.left) (parts.2.filterMap Either.right)

/-- properties_and_children from parser.rs:
property.map(Left).or(element.map(Right)).padded().repeated().collect(). -/
def itemsP (elem : Parser Element) : Parser (List (Either Property Element)) :=
  prepeated (padded (porelse (pmap Either.Left property) (pmap Either.Right elem)))

/-- block from parser.rs: @Kind name, then the delimited body. -/
def blockP (elem : Parser Element) (oc cc : Char) : Parser Element :=
  pmap (fun x => mkElement x.1.1 x.1.2 x.2)
    (pseq (pseq (ignoreThen (pchar '@') identP) identP)
      (ignoreThen (padded (pchar oc)) (thenIgnore (itemsP elem) (padded (pchar cc)))))

def lbrace : Char := Char.ofNat 123

def rbrace : Char := Char.ofNat 125

/-- element from parser.rs: the recursive element parser,
block('{','}').or(block('(',')')), with explicit recursion fuel (one unit
per nesting level; every level consumes at least one character, so fuel
exceeding the input length never runs out).  Exhausted fuel is a failure
recorded at end of input. -/
def elementF : Nat → Parser Element
  | 0 => fun _ => .err []
  | n + 1 => porelse (blockP (elementF n) lbrace rbrace) (blockP (elementF n) '(' ')')

/-- parser() from parser.rs: one directive, then one root element, wrapped
as a Document.  There is no end-of-input requirement. -/
def parserF (fuel : Nat) : Parser Document :=
  pmap (fun x => { language := x.1, root := x.2 }) (pseq directive (elementF fuel))

/-- Run the document grammar on a string, with ample fuel, and keep the
Document on success. -/
def runDoc (input : String) : Option Document :=
  match parserF (input.length + 1) input.data with
  | .ok d _ _ => some d
  | .err _ => none

/-- Run the document grammar and, on failure, report the character offset of
the failure (the offset of the furthest recorded failure). -/
def docErrPos (input : String) : Option Nat :=
  match parserF (input.length + 1) input.data with
  | .ok _ _ _ => none
  | .err e => some (input.length - e.length)

/-- Run any parser on a string, keeping the value and the remaining text. -/
def parseOf (p : Parser α) (input : String) : Option (α × String) :=
  match p input.data with
  | .ok v r _ => some (v, String.mk r)
  | .err _ => none

/-- Trailing text whose first character, if any, is not whitespace. -/
def nwsB (g : List Char) : Bool :=
  match g with
  | [] => true
  | c :: _ => !c.isWhitespace

/-- A recorded failure suffix is in-bounds: the run never consulted input
beyond the end (an empty recorded suffix is a probe at end of input). -/
def sufOKB : Option (List Char) → Bool
  | none => true
  | some e => !e.isEmpty

/-- Success extension: appending non-whitespace trailing text to the input
does not change a successful in-bounds run -- the value and recorded
failures are unchanged and the trailing text is simply left over. -/
def ExtO (p : Parser α) : Prop :=
  ∀ s g v r b, nwsB g = true → p s = .ok v r b → sufOKB b = true →
    p (s ++ g) = .ok v (r ++ g) (b.map (fun e => e ++ g))

/-- Failure extension: appending non-whitespace trailing text to the input
does not change a failing run whose failure is strictly inside the input. -/
def ExtE (p : Parser α) : Prop :=
  ∀ s g e, nwsB g = true → p s = .err e → e ≠ [] → p (s ++ g) = .err (e ++ g)

/-- A parser insensitive to non-whitespace trailing input. -/
structure Ext (p : Parser α) : Prop where
  ok : ExtO p
  er : ExtE p

/-- Shape of one chumsky identifier token. -/
def tokOK (t : List Char) : Bool :=
  match t with
  | [] => false
  | c :: cs => isIdentStart c && cs.all isIdentCont

/-- The tail of a hyphen-joined identifier sequence: a hyphen before each
further token. -/
def joinTail (ts : List (List Char)) : List Char := ts.flatMap (fun t => '-' :: t)

/-- Text that can follow a hyphenated identifier value without extending
it: empty, or starting with a character that neither continues an
identifier, nor is a hyphen, nor opens a string. -/
def sepOK (r : List Char) : Bool :=
  match r with
  | [] => true
  | c :: _ => !isIdentCont c && c ≠ '-' && c ≠ '"'

theorem aux_filterMap_left_filter (items : List (Either L R)) :
    (items.filter isLeftB).filterMap Either.left = items.filterMap Either.left := by
  induction items with
  | nil => rfl
  | cons x xs ih =>
    cases x <;> simp [List.filter_cons, List.filterMap_cons, Either.left, isLeftB, ih]

theorem aux_filterMap_right_filter (items : List (Either L R)) :
    (items.filter (not ∘ isLeftB)).filterMap Either.right = items.filterMap Either.right := by
  induction items with
  | nil => rfl
  | cons x xs ih =>
    cases x <;> simp [List.filter_cons, List.filterMap_cons, Either.right, isLeftB, ih]

theorem aux_filterMap_left_right_length (items : List (Either L R)) :
    (items.filterMap Either.left).length + (items.filterMap Either.right).length
      = items.length := by
  induction items with
  | nil => rfl
  | cons x xs ih =>
    cases x <;> simp [List.filterMap_cons, Either.left, Either.right] <;> omega

/-- C2: the block map partitions the parsed item sequence of an element body
into the property list (all Left items, in their original relative order)
and the child list (all Right items, in their original relative order);
their lengths add up to the number of items, and the interleaving of a
property with a child is not retained (swapping an adjacent property and
child yields the same Element). -/
theorem c2_partition (k n : String) (items : List (Either Property Element)) :
    (mkElement k n items).properties = items.filterMap Either.left ∧
    (mkElement k n items).children = items.filterMap Either.right ∧
    (mkElement k n items).properties.length + (mkElement k n items).children.length
      = items.length ∧
    (∀ p e, mkElement k n [Either.Left p, Either.Right e]
      = mkElement k n [Either.Right e, Either.Left p]) := by
  have hl : (mkElement k n items).properties = items.filterMap Either.left := by
    simp [mkElement, Element.properties, List.partition_eq_filter_filter,
      aux_filterMap_left_filter]
  have hr : (mkElement k n items).children = items.filterMap Either.right := by
    simp [mkElement, Element.children, List.partition_eq_filter_filter,
      aux_filterMap_right_filter]
  refine ⟨hl, hr, ?_, ?_⟩
  · rw [hl, hr]; exact aux_filterMap_left_right_length items
  · intro p e; rfl

/-- C1: the end-to-end example parses to exactly the stated Document: the
simple directive (language, ratatui), a Form named main_form with one
property title = String Hello and one child, a Panel named left_panel with
properties layout = Identifier top-to-bottom and width = Percentage 50 and
no children. -/
theorem c1_end_to_end :
    runDoc ("@language ratatui @Form main_form \x7b title = \"Hello\" @Panel left_panel \x7b layout = top-to-bottom width = 50% \x7d \x7d")
      = some
        { language := { name := "language", value := "ratatui", url := none }
          root := Element.mk "Form" "main_form"
            [{ name := "title", value := Value.String ("Hello") }]
            [Element.mk "Panel" "left_panel"
              [{ name := "layout", value := Value.Identifier ("top-to-bottom") },
               { name := "width", value := Value.Percentage 50 }] []] } := by
  rfl

/-- C4: with a valid directive in front, an element with matching brace
delimiters parses successfully, while the same element closed with a
mismatched parenthesis fails, the failure being reported at offset 19, the
position of the unexpected closing parenthesis. -/
theorem c4_delimiter_symmetry :
    runDoc ("@l v @Kind n \x7b a=1 \x7d")
      = some { language := { name := "l", value := "v", url := none }
               root := Element.mk "Kind" "n" [{ name := "a", value := Value.Number 1 }] [] } ∧
    runDoc ("@l v @Kind n \x7b a=1 )") = none ∧
    docErrPos ("@l v @Kind n \x7b a=1 )") = some 19 ∧
    ("@l v @Kind n \x7b a=1 )").data.get? 19 = some ')' := by
  exact ⟨rfl, rfl, rfl, rfl⟩

/-- C7: the URL-qualified directive example parses to a Document whose
language carries the URL and whose root is an empty parenthesis-delimited
Panel; moreover the simple directive alone would succeed on the same input
consuming only the name and value, leaving the parenthesized URL dangling,
which is why the URL form is attempted first. -/
theorem c7_url_directive :
    runDoc ("@language custom(\"https://example.com/schema\") @Panel p ( )")
      = some
        { language :=
            { name := "language", value := "custom", url := some ("https://example.com/schema") }
          root := Element.mk "Panel" "p" [] [] } ∧
    parseOf simple_directive ("@language custom(\"https://example.com/schema\") @Panel p ( )")
      = some ({ name := "language", value := "custom", url := none },
          ("(\"https://example.com/schema\") @Panel p ( )")) := by
  exact ⟨rfl, rfl⟩

/-- C8 counterexample: parsing the input does fail, but not at the position
immediately following the equals sign (offset 16; position 17, or 18 where
the expected value would start): the mandatory directive grammar consumes
the leading at-Form-f, and the element grammar then fails at offset 8, the
opening brace, so the reported failure offset is 8, not 17 or 18. -/
theorem c8_counterexample :
    runDoc ("@Form f \x7b title = \x7d") = none ∧
    docErrPos ("@Form f \x7b title = \x7d") = some 8 ∧
    ("@Form f \x7b title = \x7d").data.get? 8 = some lbrace ∧
    (8 : Nat) ≠ 17 ∧ (8 : Nat) ≠ 18 := by
  exact ⟨rfl, rfl, rfl, by decide, by decide⟩

/-- C8 amended: the input fails to parse (no Document is produced), because
the document grammar reads its leading at-Form-f as the mandatory directive
and then finds no element, failing at offset 8 (the opening brace); the
missing-value behaviour the claim describes does hold for a property inside
a well-formed document: with a directive prepended, at-lang-x then the same
text, the parse fails at offset 26, the first non-whitespace position after
the equals sign (at offset 24), where a value literal was expected. -/
theorem c8_amended :
    runDoc ("@Form f \x7b title = \x7d") = none ∧
    runDoc ("@lang x @Form f \x7b title = \x7d") = none ∧
    docErrPos ("@lang x @Form f \x7b title = \x7d") = some 26 ∧
    ("@lang x @Form f \x7b title = \x7d").data.get? 26 = some rbrace ∧
    ("@lang x @Form f \x7b title = \x7d").data.get? 24 = some '=' ∧
    ("@lang x @Form f \x7b title = \x7d").data.get? 25 = some ' ' := by
  exact ⟨rfl, rfl, rfl, rfl, rfl, rfl⟩

theorem aux_takeWhile_append_all (p : Char → Bool) (xs r : List Char)
    (h : ∀ c ∈ xs, p c = true) : (xs ++ r).takeWhile p = xs ++ r.takeWhile p := by
  induction xs with
  | nil => rfl
  | cons c cs ih =>
    have hc : p c = true := h c (List.mem_cons_self c cs)
    simp only [List.cons_append, List.takeWhile_cons, hc, if_true]
    rw [ih (fun x hx => h x (List.mem_cons_of_mem c hx))]

theorem aux_dropWhile_append_all (p : Char → Bool) (xs r : List Char)
    (h : ∀ c ∈ xs, p c = true) : (xs ++ r).dropWhile p = r.dropWhile p := by
  induction xs with
  | nil => rfl
  | cons c cs ih =>
    have hc : p c = true := h c (List.mem_cons_self c cs)
    simp only [List.cons_append, List.dropWhile_cons, hc, if_true]
    exact ih (fun x hx => h x (List.mem_cons_of_mem c hx))

theorem aux_takeWhile_stop (p : Char → Bool) (c : Char) (r : List Char)
    (h : p c = false) : (c :: r).takeWhile p = [] := by
  simp [List.takeWhile_cons, h]

theorem aux_dropWhile_stop (p : Char → Bool) (c : Char) (r : List Char)
    (h : p c = false) : (c :: r).dropWhile p = c :: r := by
  simp [List.dropWhile_cons, h]

theorem aux_alpha_not_digit (c : Char) (h : c.isAlpha = true) : c.isDigit = false := by
  simp [Char.isAlpha, Char.isUpper, Char.isLower, Char.isDigit] at h ⊢
  rcases h with ⟨h1, h2⟩ | ⟨h1, h2⟩ <;> intro hx <;>
  · show (57 : UInt32) < c.val
    have e1 : (65 : UInt32).toNat = 65 := rfl
    have e2 : (97 : UInt32).toNat = 97 := rfl
    have e3 : (57 : UInt32).toNat = 57 := rfl
    have g1 : (57 : UInt32).toNat < c.val.toNat := by
      have u1 : (65 : UInt32).toNat ≤ c.val.toNat ∨ (97 : UInt32).toNat ≤ c.val.toNat :=
        by first | exact Or.inl h1 | exact Or.inr h1
      rcases u1 with u | u <;> omega
    exact g1

theorem aux_identStart_not_digit (c : Char) (h : isIdentStart c = true) : c.isDigit = false := by
  rcases Bool.or_eq_true_iff.mp h with ha | hu
  · exact aux_alpha_not_digit c ha
  · rw [show c = '_' from by simpa using hu]; decide

theorem aux_ws_cases (c : Char) (h : c.isWhitespace = true) :
    c = ' ' ∨ c = '\t' ∨ c = '\r' ∨ c = '\n' := by
  have h2 : ((c = ' ' ∨ c = '\t') ∨ c = '\x0d') ∨ c = '\n' := by
    simpa [Char.isWhitespace] using h
  tauto

theorem aux_digit_not_ws (c : Char) (h : c.isDigit = true) : c.isWhitespace = false := by
  cases hw : c.isWhitespace
  · rfl
  · rcases aux_ws_cases c hw with h1 | h1 | h1 | h1 <;> rw [h1] at h <;> exact absurd h (by decide)

theorem aux_identStart_not_ws (c : Char) (h : isIdentStart c = true) : c.isWhitespace = false := by
  cases hw : c.isWhitespace
  · rfl
  · rcases aux_ws_cases c hw with h1 | h1 | h1 | h1 <;> rw [h1] at h <;> exact absurd h (by decide)

theorem aux_identStart_ne (c d : Char) (h : isIdentStart c = true)
    (hd : isIdentStart d = false) : c ≠ d := by
  intro he; rw [he, hd] at h; exact absurd h (by decide)

theorem aux_identCont_ne (c d : Char) (h : isIdentCont c = true)
    (hd : isIdentCont d = false) : c ≠ d := by
  intro he; rw [he, hd] at h; exact absurd h (by decide)

theorem aux_digit_ne (c d : Char) (h : c.isDigit = true) (hd : d.isDigit = false) : c ≠ d := by
  intro he; rw [he, hd] at h; exact absurd h (by decide)

theorem aux_noneOfRun_split (t r : List Char) (hq : ('"' : Char) ∉ t) :
    noneOfRun '"' (t ++ '"' :: r) = .ok (String.mk t) ('"' :: r) none := by
  have hall : ∀ c ∈ t, (fun c => decide (c ≠ '"')) c = true := by
    intro c hc
    simp only [decide_eq_true_iff]
    exact fun h => hq (h ▸ hc)
  have h1 : (t ++ '"' :: r).takeWhile (fun c => decide (c ≠ '"')) = t := by
    rw [aux_takeWhile_append_all _ t _ hall, aux_takeWhile_stop _ _ _ (by decide),
      List.append_nil]
  have h2 : (t ++ '"' :: r).dropWhile (fun c => decide (c ≠ '"')) = '"' :: r := by
    rw [aux_dropWhile_append_all _ t _ hall, aux_dropWhile_stop _ _ _ (by decide)]
  unfold noneOfRun
  rw [h1, h2]
  rfl

theorem aux_quote_body (t r : List Char) (hq : ('"' : Char) ∉ t) :
    (thenIgnore (noneOfRun '"') (pchar '"')) (t ++ '"' :: r) = .ok (String.mk t) r none := by
  simp only [thenIgnore, pmap, pseq, aux_noneOfRun_split t r hq, pchar]
  rfl

theorem aux_string_ok (t r : List Char) (hq : ('"' : Char) ∉ t) :
    string ('"' :: (t ++ '"' :: r)) = .ok (Value.String (String.mk t)) r none := by
  simp only [string, ignoreThen, pmap, pseq, pchar, if_pos]
  simp only [aux_quote_body t r hq]
  rfl

theorem aux_dstring_ok (t r : List Char) (hq : ('"' : Char) ∉ t) :
    dstring ('d' :: '"' :: (t ++ '"' :: r)) = .ok (Value.DString (String.mk t)) r none := by
  simp only [dstring, ignoreThen, pmap, pseq, pchar, if_pos]
  simp only [aux_quote_body t r hq]
  rfl

theorem aux_dstring_err_head (c : Char) (x : List Char) (h : c ≠ 'd') :
    ∃ e, dstring (c :: x) = .err e := by
  have hh : dstring (c :: x) = .err (c :: x) := by
    simp only [dstring, ignoreThen, pmap, pseq, pchar, if_neg h]
  exact ⟨_, hh⟩

theorem aux_dstring_err_quote (c2 : Char) (y : List Char) (h : c2 ≠ '"') :
    ∃ e, dstring ('d' :: c2 :: y) = .err e := by
  have hh : dstring ('d' :: c2 :: y) = .err (c2 :: y) := by
    simp [dstring, ignoreThen, pmap, pseq, pchar, maxB, h]
  exact ⟨_, hh⟩

theorem aux_string_err_head (c : Char) (x : List Char) (h : c ≠ '"') :
    ∃ e, string (c :: x) = .err e := by
  have hh : string (c :: x) = .err (c :: x) := by
    simp only [string, ignoreThen, pmap, pseq, pchar, if_neg h]
  exact ⟨_, hh⟩

theorem aux_number_err_head (c : Char) (x : List Char) (h : c.isDigit = false) :
    ∃ e, number (c :: x) = .err e := by
  have h0 : c ≠ '0' := by
    intro he; rw [he] at h; exact absurd h (by decide)
  have hh : number (c :: x) = .err (c :: x) := by
    simp [number, pmap, pseq, intTok, h, h0]
  exact ⟨_, hh⟩

theorem aux_value_string (s : List Char) (v : Value) (r : List Char) (b : Option (List Char))
    (hws : skipWs s = s)
    (hd : ∃ e1, dstring s = .err e1)
    (hs : string s = .ok v r b) :
    ∃ b2, value s = .ok v (skipWs r) b2 := by
  obtain ⟨e1, he1⟩ := hd
  have hh : value s = .ok v (skipWs r) (mergeB (some e1) b) := by
    simp only [value, padded, porelse, hws, he1, hs]
  exact ⟨_, hh⟩

theorem aux_value_dstring (s : List Char) (v : Value) (r : List Char) (b : Option (List Char))
    (hws : skipWs s = s)
    (hd : dstring s = .ok v r b) :
    ∃ b2, value s = .ok v (skipWs r) b2 := by
  have hh : value s = .ok v (skipWs r) b := by
    simp only [value, padded, porelse, hws, hd]
  exact ⟨_, hh⟩

theorem aux_value_number (s : List Char) (v : Value) (r : List Char) (b : Option (List Char))
    (hws : skipWs s = s)
    (hd : ∃ e1, dstring s = .err e1)
    (hs : ∃ e2, string s = .err e2)
    (hn : number s = .ok v r b) :
    ∃ b2, value s = .ok v (skipWs r) b2 := by
  obtain ⟨e1, he1⟩ := hd
  obtain ⟨e2, he2⟩ := hs
  have hh : value s = .ok v (skipWs r) (mergeB (some e1) (mergeB (some e2) b)) := by
    simp only [value, padded, porelse, hws, he1, he2, hn]
  exact ⟨_, hh⟩

theorem aux_value_ident (s : List Char) (v : Value) (r : List Char) (b : Option (List Char))
    (hws : skipWs s = s)
    (hd : ∃ e1, dstring s = .err e1)
    (hs : ∃ e2, string s = .err e2)
    (hn : ∃ e3, number s = .err e3)
    (hi : ident_value s = .ok v r b) :
    ∃ b2, value s = .ok v (skipWs r) b2 := by
  obtain ⟨e1, he1⟩ := hd
  obtain ⟨e2, he2⟩ := hs
  obtain ⟨e3, he3⟩ := hn
  have hh : value s
      = .ok v (skipWs r) (mergeB (some e1) (mergeB (some e2) (mergeB (some e3) b))) := by
    simp only [value, padded, porelse, hws, he1, he2, he3, hi]
  exact ⟨_, hh⟩

/-- C5: for every text t with no embedded double quote, parsing the quoted
form in value position yields Value.String of exactly t (the body verbatim,
whitespace included), and parsing the d-prefixed quoted form yields
Value.DString of exactly t; the lowercase d immediately followed by the
opening quote is the interpolated-string prefix, and no escape processing
is applied to the body. -/
theorem c5_string_literals (t r : List Char) (hq : ('"' : Char) ∉ t) :
    (∃ b1, value ('"' :: (t ++ '"' :: r))
      = .ok (Value.String (String.mk t)) (skipWs r) b1) ∧
    (∃ b2, value ('d' :: '"' :: (t ++ '"' :: r))
      = .ok (Value.DString (String.mk t)) (skipWs r) b2) := by
  constructor
  · refine aux_value_string _ _ _ none ?_ ?_ ?_
    · exact aux_dropWhile_stop _ _ _ (by decide)
    · exact aux_dstring_err_head _ _ (by decide)
    · exact aux_string_ok t r hq
  · refine aux_value_dstring _ _ _ none ?_ ?_
    · exact aux_dropWhile_stop _ _ _ (by decide)
    · exact aux_dstring_ok t r hq

/-- C5 witness: instantiating at the body text ab with a trailing space in
it, with empty following input. -/
theorem c5_string_literals_witness :
    (('"' : Char) ∉ ['a', ' ', 'b']) ∧
    ((∃ b1, value ('"' :: (['a', ' ', 'b'] ++ '"' :: []))
      = .ok (Value.String (String.mk ['a', ' ', 'b'])) (skipWs []) b1) ∧
    (∃ b2, value ('d' :: '"' :: (['a', ' ', 'b'] ++ '"' :: []))
      = .ok (Value.DString (String.mk ['a', ' ', 'b'])) (skipWs []) b2)) :=
  ⟨by decide, c5_string_literals ['a', ' ', 'b'] [] (by decide)⟩

theorem aux_tokOK_parts (c : Char) (cs : List Char) (h : tokOK (c :: cs) = true) :
    isIdentStart c = true ∧ ∀ x ∈ cs, isIdentCont x = true := by
  have h2 : (isIdentStart c && cs.all isIdentCont) = true := by simpa [tokOK] using h
  obtain ⟨ha, hb⟩ := Bool.and_eq_true_iff.mp h2
  exact ⟨ha, fun x hx => List.all_eq_true.mp hb x hx⟩

theorem aux_identTok_ok (t r : List Char) (h : tokOK t = true)
    (hr : r = [] ∨ ∃ c2 cs2, r = c2 :: cs2 ∧ isIdentCont c2 = false) :
    identTok (t ++ r) = .ok (String.mk t) r (eoiMark r) := by
  match t, h with
  | c :: cs, h =>
    obtain ⟨h1, hall⟩ := aux_tokOK_parts c cs h
    have htw : (cs ++ r).takeWhile isIdentCont = cs := by
      rw [aux_takeWhile_append_all _ cs r hall]
      rcases hr with h3 | ⟨c2, cs2, h3, h4⟩
      · rw [h3]; simp
      · rw [h3, aux_takeWhile_stop _ _ _ h4, List.append_nil]
    have hdw : (cs ++ r).dropWhile isIdentCont = r := by
      rw [aux_dropWhile_append_all _ cs r hall]
      rcases hr with h3 | ⟨c2, cs2, h3, h4⟩
      · rw [h3]; rfl
      · rw [h3, aux_dropWhile_stop _ _ _ h4]
    show identTok (c :: (cs ++ r)) = .ok (String.mk (c :: cs)) r (eoiMark r)
    simp [identTok, h1, htw, hdw]

theorem aux_sepOK_parts (sep : List Char) (hs : sepOK sep = true) :
    sep = [] ∨ ∃ c cs, sep = c :: cs ∧ isIdentCont c = false ∧ c ≠ '-' ∧ c ≠ '"' := by
  cases sep with
  | nil => exact Or.inl rfl
  | cons c cs =>
    have h2 : (!isIdentCont c && c ≠ '-' && c ≠ '"') = true := by simpa [sepOK] using hs
    obtain ⟨h3, h4⟩ := Bool.and_eq_true_iff.mp h2
    obtain ⟨h5, h6⟩ := Bool.and_eq_true_iff.mp h3
    refine Or.inr ⟨c, cs, rfl, ?_, ?_, ?_⟩
    · simpa using h5
    · simpa using h6
    · simpa using h4

theorem aux_hyphen_chain (ts : List (List Char)) : ∀ (f : Nat) (sep : List Char),
    (joinTail ts ++ sep).length < f → (∀ t ∈ ts, tokOK t = true) → sepOK sep = true →
    ∃ b, repAux (ignoreThen (pchar '-') identTok) f (joinTail ts ++ sep)
      = .ok (ts.map String.mk) sep b := by
  induction ts with
  | nil =>
    intro f sep hf hts hs
    match f, hf with
    | f + 1, _ =>
      rcases aux_sepOK_parts sep hs with h3 | ⟨c, cs, h3, h4, h5, h6⟩
      · subst h3
        exact ⟨_, rfl⟩
      · subst h3
        have hp : (ignoreThen (pchar '-') identTok) (c :: cs) = .err (c :: cs) := by
          simp [ignoreThen, pmap, pseq, pchar, if_neg h5]
        have hr : repAux (ignoreThen (pchar '-') identTok) (f + 1) (joinTail [] ++ c :: cs)
            = .ok (List.map String.mk []) (c :: cs) (some (c :: cs)) := by
          simp [repAux, hp, joinTail]
        exact ⟨_, hr⟩
  | cons t ts ih =>
    intro f sep hf hts hs
    have htOK : tokOK t = true := hts t (List.mem_cons_self t ts)
    have htsOK : ∀ x ∈ ts, tokOK x = true := fun x hx => hts x (List.mem_cons_of_mem t hx)
    have hjoin : joinTail (t :: ts) ++ sep = '-' :: (t ++ (joinTail ts ++ sep)) := by
      simp [joinTail, List.flatMap_cons]
    have hrshape : (joinTail ts ++ sep) = [] ∨
        ∃ c2 cs2, (joinTail ts ++ sep) = c2 :: cs2 ∧ isIdentCont c2 = false := by
      match ts with
      | [] =>
        rcases aux_sepOK_parts sep hs with h3 | ⟨c, cs, h3, h4, h5, h6⟩
        · subst h3; exact Or.inl rfl
        · subst h3; exact Or.inr ⟨c, cs, rfl, h4⟩
      | t2 :: ts2 =>
        have hsh : joinTail (t2 :: ts2) ++ sep = '-' :: (t2 ++ (joinTail ts2 ++ sep)) := by
          simp [joinTail, List.flatMap_cons]
        exact Or.inr ⟨'-', _, hsh, by decide⟩
    have hident : identTok (t ++ (joinTail ts ++ sep))
        = .ok (String.mk t) (joinTail ts ++ sep) (eoiMark (joinTail ts ++ sep)) :=
      aux_identTok_ok t _ htOK hrshape
    have hp : (ignoreThen (pchar '-') identTok) (joinTail (t :: ts) ++ sep)
        = .ok (String.mk t) (joinTail ts ++ sep) (eoiMark (joinTail ts ++ sep)) := by
      rw [hjoin]
      simp [ignoreThen, pmap, pseq, pchar, hident, mergeB]
    match f, hf with
    | f + 1, hf =>
      have hlt : (joinTail ts ++ sep).length < (joinTail (t :: ts) ++ sep).length := by
        rw [hjoin]; simp only [List.length_cons, List.length_append]; omega
      have hf2 : (joinTail ts ++ sep).length < f := by
        rw [hjoin] at hf
        simp only [List.length_cons, List.length_append] at hf ⊢
        omega
      obtain ⟨b2, hb2⟩ := ih f sep hf2 htsOK hs
      have hr : repAux (ignoreThen (pchar '-') identTok) (f + 1) (joinTail (t :: ts) ++ sep)
          = .ok (String.mk t :: List.map String.mk ts) sep
            (mergeB (eoiMark (joinTail ts ++ sep)) b2) := by
        simp only [repAux, hp, hlt, if_true, hb2]
      exact ⟨_, hr⟩

theorem aux_mk_append (a b : List Char) : String.mk a ++ String.mk b = String.mk (a ++ b) := rfl

theorem aux_fold_join (ss : List (List Char)) : ∀ t0 : List Char,
    (ss.map String.mk).foldl (fun acc part => acc ++ (String.mk ['-']) ++ part) (String.mk t0)
      = String.mk (t0 ++ joinTail ss) := by
  induction ss with
  | nil => intro t0; simp [joinTail]
  | cons t ts ih =>
    intro t0
    simp only [List.map_cons, List.foldl_cons, aux_mk_append]
    rw [ih (t0 ++ ['-'] ++ t)]
    have h2 : (t0 ++ ['-'] ++ t) ++ joinTail ts = t0 ++ joinTail (t :: ts) := by
      simp [joinTail, List.flatMap_cons]
    rw [h2]

theorem aux_ident_value_ok (t0 : List Char) (ts : List (List Char)) (sep : List Char)
    (h0 : tokOK t0 = true) (hts : ∀ t ∈ ts, tokOK t = true) (hs : sepOK sep = true) :
    ∃ b, ident_value (t0 ++ (joinTail ts ++ sep))
      = .ok (Value.Identifier (String.mk (t0 ++ joinTail ts))) sep b := by
  have hrshape : (joinTail ts ++ sep) = [] ∨
      ∃ c2 cs2, (joinTail ts ++ sep) = c2 :: cs2 ∧ isIdentCont c2 = false := by
    match ts with
    | [] =>
      rcases aux_sepOK_parts sep hs with h3 | ⟨c, cs, h3, h4, h5, h6⟩
      · subst h3; exact Or.inl rfl
      · subst h3; exact Or.inr ⟨c, cs, rfl, h4⟩
    | t2 :: ts2 =>
      have hsh : joinTail (t2 :: ts2) ++ sep = '-' :: (t2 ++ (joinTail ts2 ++ sep)) := by
        simp [joinTail, List.flatMap_cons]
      exact Or.inr ⟨'-', _, hsh, by decide⟩
  have hident : identTok (t0 ++ (joinTail ts ++ sep))
      = .ok (String.mk t0) (joinTail ts ++ sep) (eoiMark (joinTail ts ++ sep)) :=
    aux_identTok_ok t0 _ h0 hrshape
  obtain ⟨b2, hb2⟩ := aux_hyphen_chain ts ((joinTail ts ++ sep).length + 1) sep
    (by omega) hts hs
  have hrep : prepeated (ignoreThen (pchar '-') identTok) (joinTail ts ++ sep)
      = .ok (ts.map String.mk) sep b2 := hb2
  have hh : ident_value (t0 ++ (joinTail ts ++ sep))
      = .ok (Value.Identifier (String.mk (t0 ++ joinTail ts))) sep
        (mergeB (eoiMark (joinTail ts ++ sep)) b2) := by
    simp only [ident_value, pmap, pseq, hident, hrep]
    rw [aux_fold_join]
  exact ⟨_, hh⟩

theorem aux_dstring_err_identish (t0 : List Char) (ts : List (List Char)) (sep : List Char)
    (h0 : tokOK t0 = true) (hs : sepOK sep = true) :
    ∃ e, dstring (t0 ++ (joinTail ts ++ sep)) = .err e := by
  match t0, h0 with
  | c0 :: cs0, h0 =>
    obtain ⟨hstart, hcont⟩ := aux_tokOK_parts c0 cs0 h0
    show ∃ e, dstring (c0 :: (cs0 ++ (joinTail ts ++ sep))) = .err e
    by_cases hd : c0 = 'd'
    · subst hd
      match cs0, hcont with
      | c1 :: cs1, hcont =>
        have hc1 : isIdentCont c1 = true := hcont c1 (List.mem_cons_self c1 cs1)
        exact aux_dstring_err_quote c1 _ (aux_identCont_ne c1 '"' hc1 (by decide))
      | [], _ =>
        match ts with
        | t2 :: ts2 =>
          have : joinTail (t2 :: ts2) ++ sep = '-' :: (t2 ++ (joinTail ts2 ++ sep)) := by
            simp [joinTail, List.flatMap_cons]
          rw [List.nil_append, this]
          exact aux_dstring_err_quote '-' _ (by decide)
        | [] =>
          rcases aux_sepOK_parts sep hs with h3 | ⟨c, cs, h3, h4, h5, h6⟩
          · subst h3
            exact ⟨_, rfl⟩
          · subst h3
            rw [List.nil_append]
            show ∃ e, dstring ('d' :: joinTail [] ++ c :: cs) = .err e
            rw [show joinTail ([] : List (List Char)) = [] from rfl]
            exact aux_dstring_err_quote c cs h6
    · exact aux_dstring_err_head c0 _ hd

/-- C6: for every nonempty sequence of identifier tokens joined by single
hyphens (with anything after it that cannot extend the identifier value),
parsing in value position yields Value.Identifier of exactly the original
hyphenated text, re-concatenated with single hyphens: the round trip is the
identity. -/
theorem c6_hyphen_identifier (t0 : List Char) (ts : List (List Char)) (sep : List Char)
    (h0 : tokOK t0 = true) (hts : ∀ t ∈ ts, tokOK t = true) (hs : sepOK sep = true) :
    ∃ b, value (t0 ++ (joinTail ts ++ sep))
      = .ok (Value.Identifier (String.mk (t0 ++ joinTail ts))) (skipWs sep) b := by
  match t0, h0 with
  | c0 :: cs0, h0 =>
    obtain ⟨hstart, hcont⟩ := aux_tokOK_parts c0 cs0 h0
    obtain ⟨b0, hb0⟩ := aux_ident_value_ok (c0 :: cs0) ts sep h0 hts hs
    refine aux_value_ident _ _ _ b0 ?_ ?_ ?_ ?_ hb0
    · show skipWs (c0 :: (cs0 ++ (joinTail ts ++ sep))) = _
      exact aux_dropWhile_stop _ _ _ (aux_identStart_not_ws c0 hstart)
    · exact aux_dstring_err_identish (c0 :: cs0) ts sep h0 hs
    · show ∃ e2, string (c0 :: (cs0 ++ (joinTail ts ++ sep))) = .err e2
      exact aux_string_err_head c0 _ (aux_identStart_ne c0 '"' hstart (by decide))
    · show ∃ e3, number (c0 :: (cs0 ++ (joinTail ts ++ sep))) = .err e3
      exact aux_number_err_head c0 _ (aux_identStart_not_digit c0 hstart)

/-- C6 witness: the token sequence left, to, right with a trailing space
parses to Identifier left-to-right. -/
theorem c6_hyphen_identifier_witness :
    (tokOK ['l', 'e', 'f', 't'] = true ∧
      (∀ t ∈ [['t', 'o'], ['r', 'i', 'g', 'h', 't']], tokOK t = true) ∧
      sepOK [' '] = true) ∧
    ∃ b, value (['l', 'e', 'f', 't'] ++ (joinTail [['t', 'o'], ['r', 'i', 'g', 'h', 't']] ++ [' ']))
      = .ok (Value.Identifier
          (String.mk (['l', 'e', 'f', 't'] ++ joinTail [['t', 'o'], ['r', 'i', 'g', 'h', 't']])))
        (skipWs [' ']) b :=
  ⟨⟨by decide, by decide, by decide⟩,
    c6_hyphen_identifier ['l', 'e', 'f', 't'] [['t', 'o'], ['r', 'i', 'g', 'h', 't']] [' ']
      (by decide) (by decide) (by decide)⟩

theorem pseq_ok_ok (p : Parser α) (q : Parser β) (s : List Char) (v : α) (r : List Char)
    (b1 : Option (List Char)) (w : β) (r2 : List Char) (b2 : Option (List Char))
    (hp : p s = .ok v r b1) (hq : q r = .ok w r2 b2) :
    pseq p q s = .ok (v, w) r2 (mergeB b1 b2) := by
  simp only [pseq, hp, hq]

theorem pmap_ok (f : α → β) (p : Parser α) (s : List Char) (v : α) (r : List Char)
    (b : Option (List Char)) (hp : p s = .ok v r b) :
    pmap f p s = .ok (f v) r b := by
  simp only [pmap, hp]

theorem aux_digit_scan (ds tail : List Char) (hall : ∀ x ∈ ds, x.isDigit = true)
    (htail : tail = [] ∨ ∃ c cs, tail = c :: cs ∧ c.isDigit = false) :
    (ds ++ tail).takeWhile Char.isDigit = ds ∧ (ds ++ tail).dropWhile Char.isDigit = tail := by
  constructor
  · rw [aux_takeWhile_append_all _ _ _ hall]
    rcases htail with h1 | ⟨c, cs, h1, h2⟩
    · rw [h1]; simp
    · rw [h1, aux_takeWhile_stop _ _ _ h2, List.append_nil]
  · rw [aux_dropWhile_append_all _ _ _ hall]
    rcases htail with h1 | ⟨c, cs, h1, h2⟩
    · rw [h1]; rfl
    · rw [h1, aux_dropWhile_stop _ _ _ h2]

theorem aux_trimPct_id (t : List Char) (h : ∀ c ∈ t, c ≠ '%') :
    trimPct (String.mk t) = String.mk t := by
  unfold trimPct
  have h2 : (String.mk t).data.reverse.dropWhile (fun c => decide (c = '%')) = t.reverse := by
    show t.reverse.dropWhile (fun c => decide (c = '%')) = t.reverse
    cases hrev : t.reverse with
    | nil => rfl
    | cons c cs =>
      have hc : c ∈ t := by
        rw [← List.mem_reverse, hrev]; exact List.mem_cons_self c cs
      rw [aux_dropWhile_stop _ _ _ (by simpa using h c hc)]
  rw [h2, List.reverse_reverse]

theorem aux_IntShape_all (I : List Char)
    (hI : I = ['0'] ∨ ∃ c cs, I = c :: cs ∧ c.isDigit = true ∧ c ≠ '0' ∧
      ∀ x ∈ cs, x.isDigit = true) :
    I ≠ [] ∧ ∀ x ∈ I, x.isDigit = true := by
  rcases hI with h1 | ⟨c, cs, h1, h2, h3, h4⟩
  · subst h1; exact ⟨by simp, by decide⟩
  · subst h1
    refine ⟨by simp, ?_⟩
    intro x hx
    rcases List.mem_cons.mp hx with h5 | h5
    · rw [h5]; exact h2
    · exact h4 x h5

theorem aux_I_head (I : List Char)
    (hI : I = ['0'] ∨ ∃ c cs, I = c :: cs ∧ c.isDigit = true ∧ c ≠ '0' ∧
      ∀ x ∈ cs, x.isDigit = true) :
    ∃ c cs, I = c :: cs ∧ c.isDigit = true := by
  rcases hI with h1 | ⟨c, cs, h1, h2, h3, h4⟩
  · exact ⟨'0', [], h1, by decide⟩
  · exact ⟨c, cs, h1, h2⟩

theorem aux_intTok_ok (I tail : List Char)
    (hI : I = ['0'] ∨ ∃ c cs, I = c :: cs ∧ c.isDigit = true ∧ c ≠ '0' ∧
      ∀ x ∈ cs, x.isDigit = true)
    (htail : tail = [] ∨ ∃ c cs, tail = c :: cs ∧ c.isDigit = false) :
    ∃ b, intTok (I ++ tail) = .ok (String.mk I) tail b := by
  rcases hI with h1 | ⟨c, cs, h1, h2, h3, h4⟩
  · subst h1
    have hh : intTok (['0'] ++ tail) = .ok (String.mk ['0']) tail none := by
      simp [intTok]
    exact ⟨_, hh⟩
  · subst h1
    obtain ⟨htw, hdw⟩ := aux_digit_scan cs tail h4 htail
    have hh : intTok ((c :: cs) ++ tail) = .ok (String.mk (c :: cs)) tail (eoiMark tail) := by
      show intTok (c :: (cs ++ tail)) = _
      simp [intTok, h2, h3, htw, hdw]
    exact ⟨_, hh⟩

theorem aux_fracTok_ok (ds tail : List Char) (hne : ds ≠ [])
    (hall : ∀ x ∈ ds, x.isDigit = true)
    (htail : tail = [] ∨ ∃ c cs, tail = c :: cs ∧ c.isDigit = false) :
    ∃ b, frac (('.' :: ds) ++ tail) = .ok (String.mk ('.' :: ds)) tail b := by
  match ds, hne with
  | d :: ds2, _ =>
    have hd : d.isDigit = true := hall d (List.mem_cons_self d ds2)
    have hall2 : ∀ x ∈ ds2, x.isDigit = true := fun x hx => hall x (List.mem_cons_of_mem d hx)
    obtain ⟨htw, hdw⟩ := aux_digit_scan ds2 tail hall2 htail
    have hh : frac (('.' :: d :: ds2) ++ tail)
        = .ok (String.mk ('.' :: d :: ds2)) tail (eoiMark tail) := by
      show frac ('.' :: (d :: (ds2 ++ tail))) = _
      simp [frac, pmap, pseq, pchar, digitsTok, hd, htw, hdw, mergeB]
    exact ⟨_, hh⟩

theorem aux_popt_frac_none (tail : List Char)
    (hnodig : ∀ c cs, tail = c :: cs → c.isDigit = false)
    (hdot : ∀ d ds2, tail = '.' :: d :: ds2 → d.isDigit = false) :
    ∃ b, popt frac tail = .ok none tail b := by
  match tail with
  | [] => exact ⟨_, rfl⟩
  | c :: cs =>
    by_cases hc : c = '.'
    · subst hc
      match cs with
      | [] => exact ⟨_, rfl⟩
      | d :: ds2 =>
        have hd : d.isDigit = false := hdot d ds2 rfl
        have hh : popt frac ('.' :: d :: ds2) = .ok none ('.' :: d :: ds2) (some (d :: ds2)) := by
          simp [popt, frac, pmap, pseq, pchar, digitsTok, hd, maxB]
        exact ⟨_, hh⟩
    · have hh : popt frac (c :: cs) = .ok none (c :: cs) (some (c :: cs)) := by
        simp [popt, frac, pmap, pseq, pchar, if_neg hc]
      exact ⟨_, hh⟩

theorem aux_intfrac (I F tail : List Char)
    (hI : I = ['0'] ∨ ∃ c cs, I = c :: cs ∧ c.isDigit = true ∧ c ≠ '0' ∧
      ∀ x ∈ cs, x.isDigit = true)
    (hF : F = [] ∨ ∃ ds, F = '.' :: ds ∧ ds ≠ [] ∧ ∀ x ∈ ds, x.isDigit = true)
    (hnodig : ∀ c cs, tail = c :: cs → c.isDigit = false)
    (hdot : F = [] → ∀ d ds2, tail = '.' :: d :: ds2 → d.isDigit = false) :
    ∃ fopt b, (pseq intTok (popt frac)) ((I ++ F) ++ tail) = .ok (String.mk I, fopt) tail b ∧
      String.mk I ++ (match fopt with | some f => f | none => String.mk []) = String.mk (I ++ F) := by
  have hFtail : (F ++ tail) = [] ∨ ∃ c cs, (F ++ tail) = c :: cs ∧ c.isDigit = false := by
    rcases hF with h1 | ⟨ds, h1, h2, h3⟩
    · subst h1
      match tail with
      | [] => exact Or.inl rfl
      | c :: cs => exact Or.inr ⟨c, cs, rfl, hnodig c cs rfl⟩
    · subst h1
      exact Or.inr ⟨'.', ds ++ tail, by simp, by decide⟩
  obtain ⟨bi, hint⟩ := aux_intTok_ok I (F ++ tail) hI hFtail
  have hassoc : (I ++ F) ++ tail = I ++ (F ++ tail) := List.append_assoc I F tail
  rcases hF with h1 | ⟨ds, h1, h2, h3⟩
  · subst h1
    obtain ⟨bf, hfr⟩ := aux_popt_frac_none tail hnodig (hdot rfl)
    rw [List.nil_append] at hint
    have hh : (pseq intTok (popt frac)) ((I ++ []) ++ tail)
        = .ok (String.mk I, none) tail (mergeB bi bf) := by
      rw [hassoc, List.nil_append]
      exact pseq_ok_ok _ _ _ _ _ _ _ _ _ hint hfr
    refine ⟨none, _, hh, ?_⟩
    simp [aux_mk_append]
  · subst h1
    have htail2 : tail = [] ∨ ∃ c cs, tail = c :: cs ∧ c.isDigit = false := by
      match tail with
      | [] => exact Or.inl rfl
      | c :: cs => exact Or.inr ⟨c, cs, rfl, hnodig c cs rfl⟩
    obtain ⟨bf, hfr⟩ := aux_fracTok_ok ds tail h2 h3 htail2
    have hfr2 : popt frac (('.' :: ds) ++ tail) = .ok (some (String.mk ('.' :: ds))) tail bf := by
      simp only [popt, hfr]
    have hh : (pseq intTok (popt frac)) ((I ++ '.' :: ds) ++ tail)
        = .ok (String.mk I, some (String.mk ('.' :: ds))) tail (mergeB bi bf) := by
      rw [hassoc]
      exact pseq_ok_ok _ _ _ _ _ _ _ _ _ hint hfr2
    refine ⟨some (String.mk ('.' :: ds)), _, hh, ?_⟩
    rw [aux_mk_append]

theorem aux_popt_pct_none (tail : List Char)
    (hpct : ∀ c cs, tail = c :: cs → c ≠ '%') :
    ∃ b, popt (pchar '%') tail = .ok none tail b := by
  match tail with
  | [] => exact ⟨_, rfl⟩
  | c :: cs =>
    have hh : popt (pchar '%') (c :: cs) = .ok none (c :: cs) (some (c :: cs)) := by
      simp [popt, pchar, if_neg (hpct c cs rfl)]
    exact ⟨_, hh⟩

theorem aux_number_num (I F rest : List Char)
    (hI : I = ['0'] ∨ ∃ c cs, I = c :: cs ∧ c.isDigit = true ∧ c ≠ '0' ∧
      ∀ x ∈ cs, x.isDigit = true)
    (hF : F = [] ∨ ∃ ds, F = '.' :: ds ∧ ds ≠ [] ∧ ∀ x ∈ ds, x.isDigit = true)
    (hnodig : ∀ c cs, rest = c :: cs → c.isDigit = false)
    (hpct : ∀ c cs, rest = c :: cs → c ≠ '%')
    (hdot : F = [] → ∀ d ds2, rest = '.' :: d :: ds2 → d.isDigit = false) :
    ∃ b, number ((I ++ F) ++ rest)
      = .ok (Value.Number ((rustParseF64 (trimPct (String.mk (I ++ F)))).getD 0)) rest b := by
  obtain ⟨fopt, b1, hh, hcat⟩ := aux_intfrac I F rest hI hF hnodig hdot
  obtain ⟨b2, hp⟩ := aux_popt_pct_none rest hpct
  have houter := pseq_ok_ok _ _ _ _ _ _ _ _ _ hh hp
  have hn : number ((I ++ F) ++ rest)
      = .ok (Value.Number ((rustParseF64 (trimPct (String.mk (I ++ F)))).getD 0)) rest
        (mergeB b1 b2) := by
    simp only [number]
    rw [pmap_ok _ _ _ _ _ _ houter]
    simp [hcat]
  exact ⟨_, hn⟩

theorem aux_number_pct (I F prest : List Char)
    (hI : I = ['0'] ∨ ∃ c cs, I = c :: cs ∧ c.isDigit = true ∧ c ≠ '0' ∧
      ∀ x ∈ cs, x.isDigit = true)
    (hF : F = [] ∨ ∃ ds, F = '.' :: ds ∧ ds ≠ [] ∧ ∀ x ∈ ds, x.isDigit = true) :
    ∃ b, number ((I ++ F) ++ '%' :: prest)
      = .ok (Value.Percentage ((rustParseF64 (trimPct (String.mk (I ++ F)))).getD 0)) prest b := by
  obtain ⟨fopt, b1, hh, hcat⟩ := aux_intfrac I F ('%' :: prest) hI hF
    (by intro c cs he; cases he; decide)
    (by intro hFnil d ds2 he; exact absurd he (by simp))
  have hp : popt (pchar '%') ('%' :: prest) = .ok (some '%') prest none := by
    simp [popt, pchar]
  have houter := pseq_ok_ok _ _ _ _ _ _ _ _ _ hh hp
  have hn : number ((I ++ F) ++ '%' :: prest)
      = .ok (Value.Percentage ((rustParseF64 (trimPct (String.mk (I ++ F)))).getD 0)) prest
        (mergeB b1 none) := by
    simp only [number]
    rw [pmap_ok _ _ _ _ _ _ houter]
    simp [hcat]
  exact ⟨_, hn⟩

theorem aux_rustParse_some (I F : List Char)
    (hI : I = ['0'] ∨ ∃ c cs, I = c :: cs ∧ c.isDigit = true ∧ c ≠ '0' ∧
      ∀ x ∈ cs, x.isDigit = true)
    (hF : F = [] ∨ ∃ ds, F = '.' :: ds ∧ ds ≠ [] ∧ ∀ x ∈ ds, x.isDigit = true) :
    ∃ q, rustParseF64 (String.mk (I ++ F)) = some q := by
  obtain ⟨hne, hall⟩ := aux_IntShape_all I hI
  obtain ⟨c, cs, hIc, hcd⟩ := aux_I_head I hI
  have hFshape : F = [] ∨ ∃ ds, F = '.' :: ds ∧ ds ≠ [] ∧ ∀ x ∈ ds, x.isDigit = true := hF
  have hFtail : F = [] ∨ ∃ c2 cs2, F = c2 :: cs2 ∧ c2.isDigit = false := by
    rcases hF with h1 | ⟨ds, h1, h2, h3⟩
    · exact Or.inl h1
    · exact Or.inr ⟨'.', ds, h1, by decide⟩
  obtain ⟨htw, hdw⟩ := aux_digit_scan I F hall hFtail
  have hmne : c ≠ '-' := aux_digit_ne c '-' hcd (by decide)
  have hpne : c ≠ '+' := aux_digit_ne c '+' hcd (by decide)
  have hIne : I.isEmpty = false := by
    rw [hIc]; rfl
  rcases hFshape with h1 | ⟨ds, h1, h2, h3⟩
  · subst h1
    refine ⟨(digitsVal I : ℚ), ?_⟩
    show rustParseF64 (String.mk (I ++ [])) = _
    rw [List.append_nil] at htw hdw ⊢
    conv_lhs => rw [rustParseF64]
    rw [hIc]
    simp only [if_neg hmne, if_neg hpne]
    rw [← hIc]
    simp only [htw, hdw, hIne]
    rfl
  · subst h1
    have hdstw : ds.takeWhile Char.isDigit = ds := by
      have := aux_takeWhile_append_all Char.isDigit ds [] h3
      simpa using this
    have hdsdw : ds.dropWhile Char.isDigit = [] := by
      have := aux_dropWhile_append_all Char.isDigit ds [] h3
      simpa using this
    refine ⟨(digitsVal I : ℚ) + (digitsVal ds : ℚ) / ((10 : ℚ)) ^ ds.length, ?_⟩
    conv_lhs => rw [rustParseF64]
    rw [hIc]
    simp only [List.cons_append]
    rw [show (c :: (cs ++ '.' :: ds) : List Char) = (c :: cs) ++ '.' :: ds from by simp]
    simp only [if_neg hmne, if_neg hpne]
    rw [← hIc]
    simp only [htw, hdw, hdstw, hdsdw, hIne]
    simp [hIne]

/-- C3: for every numeric text matched by the numeric literal grammar (an
integer digit run I in text::int form, optionally followed by a fraction F
of a dot and a digit run) the conversion to a double never fails
(rustParseF64 returns a value), trimming trailing percent signs from the
numeric text is the identity (the percent sign is never part of the
converted text), and parsing in value position yields Number of that value
when the numeral is not immediately followed by a percent sign, and
Percentage of the same value with the percent sign consumed when it is. -/
theorem c3_numeric_literals (I F rest prest : List Char)
    (hI : I = ['0'] ∨ ∃ c cs, I = c :: cs ∧ c.isDigit = true ∧ c ≠ '0' ∧
      ∀ x ∈ cs, x.isDigit = true)
    (hF : F = [] ∨ ∃ ds, F = '.' :: ds ∧ ds ≠ [] ∧ ∀ x ∈ ds, x.isDigit = true)
    (hrest : ∀ c cs, rest = c :: cs → c.isDigit = false ∧ c ≠ '%')
    (hdot : F = [] → ∀ d ds2, rest = '.' :: d :: ds2 → d.isDigit = false) :
    ∃ q, rustParseF64 (String.mk (I ++ F)) = some q ∧
      trimPct (String.mk (I ++ F)) = String.mk (I ++ F) ∧
      (∃ b1, value ((I ++ F) ++ rest) = .ok (Value.Number q) (skipWs rest) b1) ∧
      (∃ b2, value ((I ++ F) ++ '%' :: prest) = .ok (Value.Percentage q) (skipWs prest) b2) := by
  obtain ⟨q, hq⟩ := aux_rustParse_some I F hI hF
  have htrim : trimPct (String.mk (I ++ F)) = String.mk (I ++ F) := by
    apply aux_trimPct_id
    intro c hc
    rcases List.mem_append.mp hc with h1 | h1
    · exact aux_digit_ne c '%' ((aux_IntShape_all I hI).2 c h1) (by decide)
    · rcases hF with h2 | ⟨ds, h2, h3, h4⟩
      · rw [h2] at h1; exact absurd h1 (by simp)
      · rw [h2] at h1
        rcases List.mem_cons.mp h1 with h5 | h5
        · rw [h5]; decide
        · exact aux_digit_ne c '%' (h4 c h5) (by decide)
  obtain ⟨c0, cs0, hIc, hc0d⟩ := aux_I_head I hI
  have hnd : ∀ c cs, rest = c :: cs → c.isDigit = false := fun c cs h => (hrest c cs h).1
  have hpc : ∀ c cs, rest = c :: cs → c ≠ '%' := fun c cs h => (hrest c cs h).2
  refine ⟨q, hq, htrim, ?_, ?_⟩
  · obtain ⟨bn, hn⟩ := aux_number_num I F rest hI hF hnd hpc hdot
    rw [htrim, hq] at hn
    simp only [Option.getD_some] at hn
    refine aux_value_number _ _ _ _ ?_ ?_ ?_ hn
    · rw [hIc]
      exact aux_dropWhile_stop _ _ _ (aux_digit_not_ws c0 hc0d)
    · rw [hIc]
      exact aux_dstring_err_head c0 _ (aux_digit_ne c0 'd' hc0d (by decide))
    · rw [hIc]
      exact aux_string_err_head c0 _ (aux_digit_ne c0 '"' hc0d (by decide))
  · obtain ⟨bn, hn⟩ := aux_number_pct I F prest hI hF
    rw [htrim, hq] at hn
    simp only [Option.getD_some] at hn
    refine aux_value_number _ _ _ _ ?_ ?_ ?_ hn
    · rw [hIc]
      exact aux_dropWhile_stop _ _ _ (aux_digit_not_ws c0 hc0d)
    · rw [hIc]
      exact aux_dstring_err_head c0 _ (aux_digit_ne c0 'd' hc0d (by decide))
    · rw [hIc]
      exact aux_string_err_head c0 _ (aux_digit_ne c0 '"' hc0d (by decide))

/-- C3 witness: the numeral 5.2 (integer part 5, fraction .2) followed by a
space, and followed by a percent sign. -/
theorem c3_numeric_literals_witness :
    ∃ q, rustParseF64 (String.mk (['5'] ++ ['.', '2'])) = some q ∧
      trimPct (String.mk (['5'] ++ ['.', '2'])) = String.mk (['5'] ++ ['.', '2']) ∧
      (∃ b1, value ((['5'] ++ ['.', '2']) ++ [' '])
        = .ok (Value.Number q) (skipWs [' ']) b1) ∧
      (∃ b2, value ((['5'] ++ ['.', '2']) ++ '%' :: [' '])
        = .ok (Value.Percentage q) (skipWs [' ']) b2) :=
  c3_numeric_literals ['5'] ['.', '2'] [' '] [' ']
    (Or.inr ⟨'5', [], rfl, by decide, by decide, by decide⟩)
    (Or.inr ⟨['2'], rfl, by decide, by decide⟩)
    (by intro c cs h; cases h; exact ⟨by decide, by decide⟩)
    (fun h => absurd h (by decide))

/-- C9: the numeric grammar accepts only unsigned integer and decimal
forms.  A value starting with a minus sign fails outright for every
continuation; the text 1e3 is never read as one numeral (the numeric
grammar stops after the 1, for every continuation); the text 007 is never
read as one numeral (text::int refuses leading zeroes, so only the 0 is
consumed, for every continuation); and whole documents using -5, 1e3 or 007
as property values all fail to parse. -/
theorem c9_unsigned_decimal_only :
    (∀ rest : List Char, ∃ e, value ('-' :: rest) = .err e) ∧
    (∀ rest : List Char, ∃ b,
      value ('1' :: 'e' :: '3' :: rest) = .ok (Value.Number 1) ('e' :: '3' :: rest) b) ∧
    (∀ rest : List Char, ∃ b,
      value ('0' :: '0' :: '7' :: rest) = .ok (Value.Number 0) ('0' :: '7' :: rest) b) ∧
    runDoc ("@l v @F f \x7b a = -5 \x7d") = none ∧
    runDoc ("@l v @F f \x7b a = 1e3 \x7d") = none ∧
    runDoc ("@l v @F f \x7b a = 007 \x7d") = none := by
  exact ⟨fun rest => ⟨_, rfl⟩, fun rest => ⟨_, rfl⟩, fun rest => ⟨_, rfl⟩, rfl, rfl, rfl⟩

theorem aux_shorter_ne (e1 e2 : List Char) (h : shorter e1 e2 ≠ []) : e1 ≠ [] ∧ e2 ≠ [] := by
  unfold shorter at h
  by_cases hlt : e2.length < e1.length
  · rw [if_pos hlt] at h
    refine ⟨?_, h⟩
    intro h1; subst h1; simp at hlt
  · rw [if_neg hlt] at h
    refine ⟨h, ?_⟩
    intro h2; subst h2
    simp only [List.length_nil, Nat.not_lt, Nat.le_zero_eq, List.length_eq_zero] at hlt
    exact h hlt

theorem aux_sufOK_some (e : List Char) (h : sufOKB (some e) = true) : e ≠ [] := by
  simpa [sufOKB, List.isEmpty_iff] using h

theorem aux_sufOK_some_intro (e : List Char) (h : e ≠ []) : sufOKB (some e) = true := by
  simpa [sufOKB, List.isEmpty_iff] using h

theorem aux_sufOK_mergeB (b1 b2 : Option (List Char)) (h : sufOKB (mergeB b1 b2) = true) :
    sufOKB b1 = true ∧ sufOKB b2 = true := by
  cases b1 with
  | none => exact ⟨rfl, h⟩
  | some e1 =>
    cases b2 with
    | none => exact ⟨h, rfl⟩
    | some e2 =>
      have h2 : shorter e1 e2 ≠ [] := aux_sufOK_some _ (by simpa [mergeB] using h)
      obtain ⟨ha, hb⟩ := aux_shorter_ne e1 e2 h2
      exact ⟨aux_sufOK_some_intro _ ha, aux_sufOK_some_intro _ hb⟩

theorem aux_maxB_ne (b : Option (List Char)) (e : List Char) (h : maxB b e ≠ []) :
    sufOKB b = true ∧ e ≠ [] := by
  cases b with
  | none => exact ⟨rfl, h⟩
  | some e1 =>
    obtain ⟨h1, h2⟩ := aux_shorter_ne e1 e (by simpa [maxB] using h)
    exact ⟨aux_sufOK_some_intro _ h1, h2⟩

theorem aux_shorter_map (e1 e2 g : List Char) :
    shorter (e1 ++ g) (e2 ++ g) = shorter e1 e2 ++ g := by
  unfold shorter
  by_cases h : e2.length < e1.length
  · rw [if_pos h, if_pos (by simp only [List.length_append]; omega)]
  · rw [if_neg h, if_neg (by simp only [List.length_append]; omega)]

theorem aux_mergeB_map (b1 b2 : Option (List Char)) (g : List Char) :
    mergeB (b1.map (fun e => e ++ g)) (b2.map (fun e => e ++ g))
      = (mergeB b1 b2).map (fun e => e ++ g) := by
  cases b1 <;> cases b2 <;> simp [mergeB, aux_shorter_map]

theorem aux_maxB_map (b : Option (List Char)) (e g : List Char) :
    maxB (b.map (fun x => x ++ g)) (e ++ g) = maxB b e ++ g := by
  cases b with
  | none => rfl
  | some e1 =>
    simp only [Option.map_some, maxB]
    exact aux_shorter_map _ _ g

theorem aux_sufOK_map (b : Option (List Char)) (g : List Char) (h : sufOKB b = true) :
    sufOKB (b.map (fun e => e ++ g)) = true := by
  cases b with
  | none => rfl
  | some e =>
    have he : e ≠ [] := aux_sufOK_some e h
    apply aux_sufOK_some_intro
    simp [he]

theorem aux_skipWs_append (g xs : List Char) (hg : nwsB g = true) :
    skipWs (xs ++ g) = skipWs xs ++ g := by
  unfold skipWs
  induction xs with
  | nil =>
    simp only [List.nil_append]
    cases g with
    | nil => rfl
    | cons c cs =>
      have hc : c.isWhitespace = false := by
        have := hg
        simp only [nwsB, Bool.not_eq_true'] at this
        exact this
      rw [aux_dropWhile_stop _ _ _ hc]
      rfl
  | cons x xs ih =>
    cases hx : x.isWhitespace with
    | true => simp only [List.cons_append, List.dropWhile_cons, hx, if_true]; exact ih
    | false => simp only [List.cons_append, List.dropWhile_cons, hx]; rfl

theorem aux_scan_extend (p : Char → Bool) (xs g : List Char) (c : Char) (cs : List Char)
    (h : xs.dropWhile p = c :: cs) :
    (xs ++ g).takeWhile p = xs.takeWhile p ∧ (xs ++ g).dropWhile p = (c :: cs) ++ g := by
  induction xs with
  | nil => simp at h
  | cons x xs ih =>
    cases hx : p x with
    | true =>
      rw [List.dropWhile_cons, if_pos (by rw [hx])] at h
      obtain ⟨ih1, ih2⟩ := ih h
      constructor
      · simp only [List.cons_append, List.takeWhile_cons, hx, if_true, ih1]
      · simp only [List.cons_append, List.dropWhile_cons, hx, if_true, ih2]
    | false =>
      rw [List.dropWhile_cons, if_neg (by rw [hx]; exact Bool.false_ne_true)] at h
      cases h
      constructor
      · simp [List.takeWhile_cons, hx]
      · simp [List.dropWhile_cons, hx]

theorem ext_pchar (c : Char) : Ext (pchar c) := by
  constructor
  · intro s g v r b hg hok hb
    cases s with
    | nil => exact PRes.noConfusion hok
    | cons d rest =>
      by_cases hd : d = c
      · rw [show pchar c (d :: rest) = .ok d rest none from by simp [pchar, hd]] at hok
        cases hok
        simp [pchar, hd]
      · rw [show pchar c (d :: rest) = .err (d :: rest) from by simp [pchar, hd]] at hok
        exact PRes.noConfusion hok
  · intro s g e hg herr hne
    cases s with
    | nil =>
      rw [show pchar c [] = .err [] from rfl] at herr
      cases herr
      exact absurd rfl hne
    | cons d rest =>
      by_cases hd : d = c
      · rw [show pchar c (d :: rest) = .ok d rest none from by simp [pchar, hd]] at herr
        exact PRes.noConfusion herr
      · rw [show pchar c (d :: rest) = .err (d :: rest) from by simp [pchar, hd]] at herr
        cases herr
        simp [pchar, hd]

theorem ext_pmap (f : α → β) (p : Parser α) (hp : Ext p) : Ext (pmap f p) := by
  constructor
  · intro s g v r b hg hok hb
    cases hps : p s with
    | err e =>
      simp only [pmap, hps] at hok
      exact PRes.noConfusion hok
    | ok v0 r0 b0 =>
      simp only [pmap, hps] at hok
      cases hok
      simp only [pmap, hp.ok _ _ _ _ _ hg hps hb]
  · intro s g e hg herr hne
    cases hps : p s with
    | ok v0 r0 b0 =>
      simp only [pmap, hps] at herr
      exact PRes.noConfusion herr
    | err e0 =>
      simp only [pmap, hps] at herr
      cases herr
      simp only [pmap, hp.er _ _ _ hg hps hne]

theorem ext_pseq (p : Parser α) (q : Parser β) (hp : Ext p) (hq : Ext q) : Ext (pseq p q) := by
  constructor
  · intro s g v r b hg hok hb
    cases hps : p s with
    | err e =>
      simp only [pseq, hps] at hok
      exact PRes.noConfusion hok
    | ok v1 r1 b1 =>
      cases hqr : q r1 with
      | err e =>
        simp only [pseq, hps, hqr] at hok
        exact PRes.noConfusion hok
      | ok v2 r2 b2 =>
        simp only [pseq, hps, hqr] at hok
        cases hok
        obtain ⟨hb1, hb2⟩ := aux_sufOK_mergeB _ _ hb
        simp only [pseq, hp.ok _ _ _ _ _ hg hps hb1, hq.ok _ _ _ _ _ hg hqr hb2,
          aux_mergeB_map]
  · intro s g e hg herr hne
    cases hps : p s with
    | err e1 =>
      simp only [pseq, hps] at herr
      cases herr
      simp only [pseq, hp.er _ _ _ hg hps hne]
    | ok v1 r1 b1 =>
      cases hqr : q r1 with
      | ok v2 r2 b2 =>
        simp only [pseq, hps, hqr] at herr
        exact PRes.noConfusion herr
      | err e2 =>
        simp only [pseq, hps, hqr] at herr
        cases herr
        obtain ⟨hb1, he2⟩ := aux_maxB_ne _ _ hne
        simp only [pseq, hp.ok _ _ _ _ _ hg hps hb1, hq.er _ _ _ hg hqr he2,
          aux_maxB_map]

theorem ext_porelse (p q : Parser α) (hp : Ext p) (hq : Ext q) : Ext (porelse p q) := by
  constructor
  · intro s g v r b hg hok hb
    cases hps : p s with
    | ok v1 r1 b1 =>
      simp only [porelse, hps] at hok
      cases hok
      simp only [porelse, hp.ok _ _ _ _ _ hg hps hb]
    | err e1 =>
      cases hqs : q s with
      | err e2 =>
        simp only [porelse, hps, hqs] at hok
        exact PRes.noConfusion hok
      | ok v2 r2 b2 =>
        simp only [porelse, hps, hqs] at hok
        cases hok
        obtain ⟨hb1, hb2⟩ := aux_sufOK_mergeB (some e1) _ hb
        have he1 : e1 ≠ [] := aux_sufOK_some e1 hb1
        simp only [porelse, hp.er _ _ _ hg hps he1, hq.ok _ _ _ _ _ hg hqs hb2]
        rw [show (some (e1 ++ g)) = (some e1).map (fun x => x ++ g) from rfl, aux_mergeB_map]
  · intro s g e hg herr hne
    cases hps : p s with
    | ok v1 r1 b1 =>
      simp only [porelse, hps] at herr
      exact PRes.noConfusion herr
    | err e1 =>
      cases hqs : q s with
      | ok v2 r2 b2 =>
        simp only [porelse, hps, hqs] at herr
        exact PRes.noConfusion herr
      | err e2 =>
        simp only [porelse, hps, hqs] at herr
        cases herr
        obtain ⟨h1e, h2e⟩ := aux_shorter_ne e1 e2 hne
        simp only [porelse, hp.er _ _ _ hg hps h1e, hq.er _ _ _ hg hqs h2e, aux_shorter_map]

theorem ext_popt (p : Parser α) (hp : Ext p) : Ext (popt p) := by
  constructor
  · intro s g v r b hg hok hb
    cases hps : p s with
    | ok v1 r1 b1 =>
      simp only [popt, hps] at hok
      cases hok
      simp only [popt, hp.ok _ _ _ _ _ hg hps hb]
    | err e1 =>
      simp only [popt, hps] at hok
      cases hok
      have he1 : e1 ≠ [] := aux_sufOK_some e1 hb
      simp only [popt, hp.er _ _ _ hg hps he1]
      rfl
  · intro s g e hg herr hne
    cases hps : p s with
    | ok v1 r1 b1 =>
      simp only [popt, hps] at herr
      exact PRes.noConfusion herr
    | err e1 =>
      simp only [popt, hps] at herr
      exact PRes.noConfusion herr

theorem ext_padded (p : Parser α) (hp : Ext p) : Ext (padded p) := by
  constructor
  · intro s g v r b hg hok hb
    cases hps : p (skipWs s) with
    | err e =>
      simp only [padded, hps] at hok
      exact PRes.noConfusion hok
    | ok v1 r1 b1 =>
      simp only [padded, hps] at hok
      cases hok
      have h1 := hp.ok _ _ _ _ _ hg hps hb
      simp only [padded, aux_skipWs_append g s hg, h1, aux_skipWs_append g r1 hg]
  · intro s g e hg herr hne
    cases hps : p (skipWs s) with
    | ok v1 r1 b1 =>
      simp only [padded, hps] at herr
      exact PRes.noConfusion herr
    | err e1 =>
      simp only [padded, hps] at herr
      cases herr
      simp only [padded, aux_skipWs_append g s hg, hp.er _ _ _ hg hps hne]

theorem aux_eoiMark_cons (c : Char) (cs : List Char) : eoiMark (c :: cs) = none := rfl

theorem ext_identTok : Ext identTok := by
  constructor
  · intro s g v r b hg hok hb
    cases s with
    | nil => exact PRes.noConfusion hok
    | cons c cs =>
      cases hc : isIdentStart c with
      | false =>
        simp only [identTok, hc, Bool.false_eq_true, if_false] at hok
        exact PRes.noConfusion hok
      | true =>
        simp only [identTok, hc, if_true] at hok
        cases hok
        have hne : cs.dropWhile isIdentCont ≠ [] := by
          intro h0
          rw [h0] at hb
          exact absurd hb (by decide)
        obtain ⟨d, ds, hd⟩ := List.exists_cons_of_ne_nil hne
        obtain ⟨h1, h2⟩ := aux_scan_extend isIdentCont cs g d ds hd
        show identTok (c :: (cs ++ g)) = _
        simp only [identTok, hc, if_true, h1, h2, hd]
        simp [eoiMark]
  · intro s g e hg herr hne
    cases s with
    | nil =>
      cases herr
      exact absurd rfl hne
    | cons c cs =>
      cases hc : isIdentStart c with
      | true =>
        simp only [identTok, hc, if_true] at herr
        exact PRes.noConfusion herr
      | false =>
        simp only [identTok, hc, Bool.false_eq_true, if_false] at herr
        cases herr
        show identTok (c :: (cs ++ g)) = .err ((c :: cs) ++ g)
        simp only [identTok, hc, Bool.false_eq_true, if_false]
        rfl

theorem ext_digitsTok : Ext digitsTok := by
  constructor
  · intro s g v r b hg hok hb
    cases s with
    | nil => exact PRes.noConfusion hok
    | cons c cs =>
      cases hc : c.isDigit with
      | false =>
        simp only [digitsTok, hc, Bool.false_eq_true, if_false] at hok
        exact PRes.noConfusion hok
      | true =>
        simp only [digitsTok, hc, if_true] at hok
        cases hok
        have hne : cs.dropWhile Char.isDigit ≠ [] := by
          intro h0
          rw [h0] at hb
          exact absurd hb (by decide)
        obtain ⟨d, ds, hd⟩ := List.exists_cons_of_ne_nil hne
        obtain ⟨h1, h2⟩ := aux_scan_extend Char.isDigit cs g d ds hd
        show digitsTok (c :: (cs ++ g)) = _
        simp only [digitsTok, hc, if_true, h1, h2, hd]
        simp [eoiMark]
  · intro s g e hg herr hne
    cases s with
    | nil =>
      cases herr
      exact absurd rfl hne
    | cons c cs =>
      cases hc : c.isDigit with
      | true =>
        simp only [digitsTok, hc, if_true] at herr
        exact PRes.noConfusion herr
      | false =>
        simp only [digitsTok, hc, Bool.false_eq_true, if_false] at herr
        cases herr
        show digitsTok (c :: (cs ++ g)) = .err ((c :: cs) ++ g)
        simp only [digitsTok, hc, Bool.false_eq_true, if_false]
        rfl

theorem ext_intTok : Ext intTok := by
  constructor
  · intro s g v r b hg hok hb
    cases s with
    | nil => exact PRes.noConfusion hok
    | cons c cs =>
      cases hc : (c.isDigit && !(c == '0')) with
      | true =>
        have hc2 : (c.isDigit && c ≠ '0') = true := by
          simpa [decide_not] using hc
        simp only [intTok, hc2, if_true] at hok
        cases hok
        have hne : cs.dropWhile Char.isDigit ≠ [] := by
          intro h0
          rw [h0] at hb
          exact absurd hb (by decide)
        obtain ⟨d, ds, hd⟩ := List.exists_cons_of_ne_nil hne
        obtain ⟨h1, h2⟩ := aux_scan_extend Char.isDigit cs g d ds hd
        show intTok (c :: (cs ++ g)) = _
        simp only [intTok, hc2, if_true, h1, h2, hd]
        simp [eoiMark]
      | false =>
        have hc2 : (c.isDigit && c ≠ '0') = false := by
          simpa [decide_not] using hc
        by_cases h0 : c = '0'
        · simp only [intTok, hc2, Bool.false_eq_true, if_false, h0, if_pos] at hok
          cases hok
          simp [intTok, h0]
        · simp only [intTok, hc2, Bool.false_eq_true, if_false, h0] at hok
          exact PRes.noConfusion hok
  · intro s g e hg herr hne
    cases s with
    | nil =>
      cases herr
      exact absurd rfl hne
    | cons c cs =>
      cases hc : (c.isDigit && !(c == '0')) with
      | true =>
        have hc2 : (c.isDigit && c ≠ '0') = true := by
          simpa [decide_not] using hc
        simp only [intTok, hc2, if_true] at herr
        exact PRes.noConfusion herr
      | false =>
        have hc2 : (c.isDigit && c ≠ '0') = false := by
          simpa [decide_not] using hc
        by_cases h0 : c = '0'
        · simp only [intTok, hc2, Bool.false_eq_true, if_false, h0, if_pos] at herr
          exact PRes.noConfusion herr
        · simp only [intTok, hc2, Bool.false_eq_true, if_false, h0, if_neg] at herr
          cases herr
          show intTok (c :: (cs ++ g)) = .err ((c :: cs) ++ g)
          simp only [intTok, hc2, Bool.false_eq_true, if_false, h0, if_neg]
          rfl

theorem ext_noneOfRun (qc : Char) : Ext (noneOfRun qc) := by
  constructor
  · intro s g v r b hg hok hb
    simp only [noneOfRun] at hok
    cases hok
    have hne : s.dropWhile (fun c => decide (c ≠ qc)) ≠ [] := by
      intro h0
      rw [h0] at hb
      exact absurd hb (by decide)
    obtain ⟨d, ds, hd⟩ := List.exists_cons_of_ne_nil hne
    obtain ⟨h1, h2⟩ := aux_scan_extend _ s g d ds hd
    simp only [noneOfRun, h1, h2, hd]
    simp [eoiMark]
  · intro s g e hg herr hne
    simp only [noneOfRun] at herr
    exact PRes.noConfusion herr

theorem aux_repAux_not_err (p : Parser α) (f : Nat) :
    ∀ (s e : List Char), repAux p f s ≠ .err e := by
  induction f with
  | zero => intro s e h; exact PRes.noConfusion h
  | succ f ih =>
    intro s e h
    simp only [repAux] at h
    cases hps : p s with
    | err e1 =>
      simp only [hps] at h
      exact PRes.noConfusion h
    | ok v r b =>
      simp only [hps] at h
      by_cases hlt : r.length < s.length
      · rw [if_pos hlt] at h
        cases hrec : repAux p f r with
        | ok vs r2 b2 =>
          simp only [hrec] at h
          exact PRes.noConfusion h
        | err e2 => exact ih r e2 hrec
      · rw [if_neg hlt] at h
        exact PRes.noConfusion h

theorem aux_repAux_fuel (p : Parser α) (f : Nat) :
    ∀ (s : List Char) (vs : List α) (r : List Char) (b : Option (List Char)) (f2 : Nat),
    repAux p f s = .ok vs r b → sufOKB b = true → s.length < f2 →
    repAux p f2 s = .ok vs r b := by
  induction f with
  | zero =>
    intro s vs r b f2 h hb hf2
    simp only [repAux] at h
    cases h
    exact absurd hb (by decide)
  | succ f ih =>
    intro s vs r b f2 h hb hf2
    match f2, hf2 with
    | f2 + 1, hf2 =>
      simp only [repAux] at h ⊢
      cases hps : p s with
      | err e1 =>
        simp only [hps] at h ⊢
        exact h
      | ok v r1 b1 =>
        simp only [hps] at h ⊢
        by_cases hlt : r1.length < s.length
        · rw [if_pos hlt] at h ⊢
          cases hrec : repAux p f r1 with
          | err e2 => exact absurd hrec (aux_repAux_not_err p f r1 e2)
          | ok vs2 r2 b2 =>
            simp only [hrec] at h
            cases h
            obtain ⟨hb1, hb2⟩ := aux_sufOK_mergeB _ _ hb
            simp only [ih r1 _ _ _ f2 hrec hb2 (by omega)]
        · rw [if_neg hlt] at h ⊢
          exact h

theorem ext_repAux (p : Parser α) (hp : Ext p) (f : Nat) :
    ∀ (s g : List Char) (vs : List α) (r : List Char) (b : Option (List Char)),
    nwsB g = true → repAux p f s = .ok vs r b → sufOKB b = true →
    repAux p f (s ++ g) = .ok vs (r ++ g) (b.map (fun e => e ++ g)) := by
  induction f with
  | zero =>
    intro s g vs r b hg h hb
    simp only [repAux] at h
    cases h
    exact absurd hb (by decide)
  | succ f ih =>
    intro s g vs r b hg h hb
    simp only [repAux] at h ⊢
    cases hps : p s with
    | err e1 =>
      simp only [hps] at h
      cases h
      have he1 : e1 ≠ [] := aux_sufOK_some e1 hb
      simp only [hp.er _ _ _ hg hps he1]
      rfl
    | ok v r1 b1 =>
      simp only [hps] at h
      by_cases hlt : r1.length < s.length
      · rw [if_pos hlt] at h
        cases hrec : repAux p f r1 with
        | err e2 => exact absurd hrec (aux_repAux_not_err p f r1 e2)
        | ok vs2 r2 b2 =>
          simp only [hrec] at h
          cases h
          obtain ⟨hb1, hb2⟩ := aux_sufOK_mergeB _ _ hb
          simp only [hp.ok _ _ _ _ _ hg hps hb1]
          have hlt2 : (r1 ++ g).length < (s ++ g).length := by
            simp only [List.length_append]; omega
          rw [if_pos hlt2]
          simp only [ih r1 g _ _ _ hg hrec hb2, aux_mergeB_map]
      · rw [if_neg hlt] at h
        cases h
        simp only [hp.ok _ _ _ _ _ hg hps hb]
        have hlt2 : ¬ (r1 ++ g).length < (s ++ g).length := by
          simp only [List.length_append]; omega
        rw [if_neg hlt2]

theorem ext_prepeated (p : Parser α) (hp : Ext p) : Ext (prepeated p) := by
  constructor
  · intro s g vs r b hg h hb
    have h1 : repAux p (s.length + 1) (s ++ g) = .ok vs (r ++ g) (b.map (fun e => e ++ g)) :=
      ext_repAux p hp (s.length + 1) s g vs r b hg h hb
    show repAux p ((s ++ g).length + 1) (s ++ g) = _
    exact aux_repAux_fuel p (s.length + 1) (s ++ g) vs (r ++ g) _ ((s ++ g).length + 1) h1
      (aux_sufOK_map b g hb) (by omega)
  · intro s g e hg herr hne
    exact absurd herr (aux_repAux_not_err p (s.length + 1) s e)

theorem ext_ignoreThen (p : Parser α) (q : Parser β) (hp : Ext p) (hq : Ext q) :
    Ext (ignoreThen p q) :=
  ext_pmap _ _ (ext_pseq _ _ hp hq)

theorem ext_thenIgnore (p : Parser α) (q : Parser β) (hp : Ext p) (hq : Ext q) :
    Ext (thenIgnore p q) :=
  ext_pmap _ _ (ext_pseq _ _ hp hq)

theorem ext_identP : Ext identP := ext_padded _ ext_identTok

theorem ext_url_string : Ext url_string :=
  ext_ignoreThen _ _ (ext_pchar _) (ext_thenIgnore _ _ (ext_noneOfRun _) (ext_pchar _))

theorem ext_simple_directive : Ext simple_directive :=
  ext_pmap _ _ (ext_pseq _ _ (ext_ignoreThen _ _ (ext_pchar _) ext_identP) ext_identP)

theorem ext_directive_with_url : Ext directive_with_url :=
  ext_pmap _ _ (ext_pseq _ _ (ext_pseq _ _ (ext_ignoreThen _ _ (ext_pchar _) ext_identP)
    ext_identP)
    (ext_ignoreThen _ _ (ext_pchar _) (ext_thenIgnore _ _ ext_url_string (ext_pchar _))))

theorem ext_directive : Ext directive :=
  ext_padded _ (ext_porelse _ _ ext_directive_with_url ext_simple_directive)

theorem ext_string : Ext string :=
  ext_pmap _ _ (ext_ignoreThen _ _ (ext_pchar _)
    (ext_thenIgnore _ _ (ext_noneOfRun _) (ext_pchar _)))

theorem ext_dstring : Ext dstring :=
  ext_pmap _ _ (ext_ignoreThen _ _ (ext_pseq _ _ (ext_pchar _) (ext_pchar _))
    (ext_thenIgnore _ _ (ext_noneOfRun _) (ext_pchar _)))

theorem ext_frac : Ext frac :=
  ext_pmap _ _ (ext_pseq _ _ (ext_pchar _) ext_digitsTok)

theorem ext_number : Ext number :=
  ext_pmap _ _ (ext_pseq _ _ (ext_pseq _ _ ext_intTok (ext_popt _ ext_frac))
    (ext_popt _ (ext_pchar _)))

theorem ext_ident_value : Ext ident_value :=
  ext_pmap _ _ (ext_pseq _ _ ext_identTok
    (ext_prepeated _ (ext_ignoreThen _ _ (ext_pchar _) ext_identTok)))

theorem ext_value : Ext value :=
  ext_padded _ (ext_porelse _ _ ext_dstring
    (ext_porelse _ _ ext_string (ext_porelse _ _ ext_number ext_ident_value)))

theorem ext_property : Ext property :=
  ext_pmap _ _ (ext_pseq _ _ (ext_thenIgnore _ _ ext_identP (ext_padded _ (ext_pchar _)))
    ext_value)

theorem ext_itemsP (elem : Parser Element) (he : Ext elem) : Ext (itemsP elem) :=
  ext_prepeated _ (ext_padded _ (ext_porelse _ _ (ext_pmap _ _ ext_property)
    (ext_pmap _ _ he)))

theorem ext_blockP (elem : Parser Element) (he : Ext elem) (oc cc : Char) :
    Ext (blockP elem oc cc) :=
  ext_pmap _ _ (ext_pseq _ _
    (ext_pseq _ _ (ext_ignoreThen _ _ (ext_pchar _) ext_identP) ext_identP)
    (ext_ignoreThen _ _ (ext_padded _ (ext_pchar _))
      (ext_thenIgnore _ _ (ext_itemsP elem he) (ext_padded _ (ext_pchar _)))))

theorem ext_elementF (n : Nat) : Ext (elementF n) := by
  induction n with
  | zero =>
    constructor
    · intro s g v r b hg h hb
      exact PRes.noConfusion h
    · intro s g e hg herr hne
      cases herr
      exact absurd rfl hne
  | succ n ih =>
    exact ext_porelse _ _ (ext_blockP _ ih _ _) (ext_blockP _ ih _ _)

theorem ext_parserF (fuel : Nat) : Ext (parserF fuel) :=
  ext_pmap _ _ (ext_pseq _ _ ext_directive (ext_elementF fuel))

/-- C10: the document grammar built by parser() does not require the end of
input.  For any recursion depth, any input on which the grammar succeeds --
with the run in bounds: every recorded failure probe lies strictly inside
the input (sufOKB) -- and any non-whitespace trailing text appended to it,
the grammar still succeeds, returns the same Document, and merely leaves
the trailing text unconsumed: trailing content is ignored by the grammar
itself, never reported as a parse error. -/
theorem c10_trailing_content_ignored (fuel : Nat) (s g : List Char) (d : Document)
    (r : List Char) (b : Option (List Char)) (hg : nwsB g = true)
    (h : parserF fuel s = .ok d r b) (hb : sufOKB b = true) :
    parserF fuel (s ++ g) = .ok d (r ++ g) (b.map (fun e => e ++ g)) :=
  (ext_parserF fuel).ok s g d r b hg h hb

/-- C10 witness: a concrete valid document with non-whitespace text xyz
appended still parses to the same Document, leaving xyz unconsumed. -/
theorem c10_trailing_content_ignored_witness :
    (nwsB (("xyz").data) = true ∧
      parserF 25 (("@l v @K n ( a = 1 )").data)
        = .ok { language := { name := "l", value := "v", url := none }
                root := Element.mk "K" "n" [{ name := "a", value := Value.Number 1 }] [] }
          [] (some [')']) ∧
      sufOKB (some [')']) = true) ∧
    parserF 25 (("@l v @K n ( a = 1 )").data ++ ("xyz").data)
      = .ok { language := { name := "l", value := "v", url := none }
              root := Element.mk "K" "n" [{ name := "a", value := Value.Number 1 }] [] }
        ([] ++ ("xyz").data) ((some [')']).map (fun e => e ++ ("xyz").data)) :=
  ⟨⟨by decide, rfl, by decide⟩,
    c10_trailing_content_ignored 25 _ _ _ _ _ (by decide) rfl (by decide)⟩

end Glyph
